import Mathlib

/-!
Verification of the session-scheduler core of `morrcaffeine_macos.py`.

Embedding conventions:
* An *instant* is a number of whole seconds since an arbitrary epoch
  (`Nat` where non-negativity is known, `Int` where the source subtracts).
  The source works with `datetime` values; every comparison and offset it
  performs is on whole seconds (durations are whole minutes, intervals
  whole seconds), so integer seconds model it exactly.
* A calendar day is its day index `instant / 86400`; `datetime.combine(day, t)`
  is `day * 86400 + t`; a time-of-day is its second-within-day (`< 86400`).
  Epoch day 0 is taken to fall on a Monday, so `weekday(day) = day % 7`
  indexes `DOW_ABBREV` exactly as Python's `date.weekday()` does.
* Python strings are `List Char`; `split`, `strip`, `lower` and slicing
  are given as structural recursions with Python's semantics (for the
  ASCII inputs the configuration grammar admits).
* Randomness (`random.randint`) is modelled by an explicit parameter:
  `rnd : Nat → Nat` stands for `fun span => random.randint(0, span)` and
  `rint : Nat → Nat → Nat` for `random.randint`; theorems hypothesise the
  documented contract (`randint a b ∈ [a, b]` when `a ≤ b`).
* The wall clock read at the top of each poll-loop iteration, together
  with the key (if any) the non-blocking reader yields in that iteration,
  is the iteration's entry in an explicit trace list; the loop is a fold
  over that trace.  A run that exhausts its (finite) trace before the
  loop exits is `none`.
-/

deriving instance DecidableEq for Except

namespace Morrcaffeine

/-- Python `s.split(",")`: at least one field, empty fields kept. -/
def splitOnComma : List Char → List (List Char)
  | [] => [[]]
  | c :: rest =>
    let r := splitOnComma rest
    if c = ',' then [] :: r
    else (c :: r.headD []) :: r.tail

/-- Python `str.isspace` for the ASCII whitespace the configuration
grammar can contain. -/
def isPySpace (c : Char) : Bool :=
  c = ' ' ∨ c = '\t' ∨ c = '\n' ∨ c = '\r' ∨ c = '\x0b' ∨ c = '\x0c'

/-- Python `s.strip()`: drop leading and trailing whitespace. -/
def pyStrip (s : List Char) : List Char :=
  ((s.dropWhile isPySpace).reverse.dropWhile isPySpace).reverse

/-- Python `s.lower()` (ASCII). -/
def pyLower (s : List Char) : List Char := s.map Char.toLower

/-- The `DAY_MAP` dictionary of the source: the seven recognised
3-letter weekday keys mapped to their canonical abbreviation. -/
def DAY_MAP : List (List Char × List Char) :=
  [("mon".data, "Mon".data), ("tue".data, "Tue".data), ("wed".data, "Wed".data),
   ("thu".data, "Thu".data), ("fri".data, "Fri".data), ("sat".data, "Sat".data),
   ("sun".data, "Sun".data)]

/-- `DOW_ABBREV` of the source: canonical abbreviation of weekday number
`0..6` (Python `date.weekday()`: Monday = 0). -/
def DOW_ABBREV : List (List Char) :=
  ["Mon".data, "Tue".data, "Wed".data, "Thu".data, "Fri".data, "Sat".data, "Sun".data]

/-- `day_abbrev` of the source, on a day index: `DOW_ABBREV[day.weekday()]`. -/
def day_abbrev (day : Nat) : List Char := DOW_ABBREV.getD (day % 7) []

/-- The comprehension `[p.strip() for p in days_csv.split(",") if p.strip()]`. -/
def splitParts (days_csv : List Char) : List (List Char) :=
  ((splitOnComma days_csv).map pyStrip).filter (fun p => p ≠ [])

/-- `p.lower()[:3]` looked up in `DAY_MAP`: `some` canonical abbreviation
when recognised, else `none` (the loop body of `normalize_days`). -/
def dayKeyLookup (p : List Char) : Option (List Char) :=
  DAY_MAP.lookup ((pyLower p).take 3)

/-- Configuration-time `ValueError`s raised by the source, by raise site. -/
inductive ConfigError
  | invalidDays
  | invalidTime
  | invalidWindow
  | invalidDuration
  | invalidInterval
  | invalidTick
deriving DecidableEq

/-- `normalize_days` of the source: split the CSV, keep the `DAY_MAP`
image of each recognised token, raise `ValueError` when nothing was
recognised. -/
def normalize_days (days_csv : List Char) : Except ConfigError (List (List Char)) :=
  let normalized := (splitParts days_csv).filterMap dayKeyLookup
  if normalized = [] then .error .invalidDays
  else .ok normalized

/-- State of standard input as observed by one call of
`read_key_nonblocking`: whether stdin is a tty, whether `select` reports
it readable, and the byte `os.read` would deliver (`none` for an empty
read).  The byte is modelled already decoded; a `decode(errors="ignore")`
failure yields an empty string, which no branch of the session loop
matches — it behaves like the arbitrary non-`Q`/`E` character `byte` can
already carry. -/
structure StdinState where
  isatty : Bool
  ready : Bool
  byte : Option Char
deriving DecidableEq

/-- `read_key_nonblocking` of the source: `none` when stdin is not a
tty, when `select` reports nothing, or when the read is empty; otherwise
the uppercased character. -/
def read_key_nonblocking (s : StdinState) : Option Char :=
  if s.isatty = false then none
  else if s.ready = false then none
  else
    match s.byte with
    | none => none
    | some c => some c.toUpper

/-- `get_random_datetime_in_window` of the source.  `rnd span` stands
for `random.randint(0, span)`.  Instants are `Int` seconds; the
`int(...)` truncation in `span_seconds` is exact because all instants
are whole seconds. -/
def get_random_datetime_in_window (rnd : Nat → Nat) (earliest_allowed window_start window_end : Int) : Option Int :=
  let min_start := if window_start > earliest_allowed then window_start else earliest_allowed
  if min_start > window_end then none
  else
    let span_seconds : Int := window_end - min_start
    if span_seconds < 0 then none
    else some (min_start + (rnd span_seconds.toNat : Int))

/-- Errors `get_next_session_start` can raise: the in-loop window
`ValueError` and the exhausted-lookahead `RuntimeError`. -/
inductive SchedError
  | invalidWindow
  | noValidStart
deriving DecidableEq

/-- Body of the 14-day lookahead of `get_next_session_start`, iterating
over the remaining day offsets.  `now` is the current instant,
`win_start`/`win_end` the window's seconds-within-day. -/
def next_start_search (rnd : Nat → Nat) (now win_start win_end : Nat) (allowed_days : List (List Char)) : List Nat → Except SchedError Int
  | [] => .error .noValidStart
  | i :: rest =>
    let day := now / 86400 + i
    if day_abbrev day ∈ allowed_days then
      let ws : Int := (day * 86400 + win_start : Nat)
      let we : Int := (day * 86400 + win_end : Nat)
      if we < ws then .error .invalidWindow
      else
        let earliest : Int := if i = 0 then (now : Int) else ((day * 86400 : Nat) : Int)
        match get_random_datetime_in_window rnd earliest ws we with
        | some candidate => .ok candidate
        | none => next_start_search rnd now win_start win_end allowed_days rest
    else next_start_search rnd now win_start win_end allowed_days rest

/-- `get_next_session_start` of the source: search today plus the next
13 days for the first day whose weekday is allowed and whose window
still admits an instant. -/
def get_next_session_start (rnd : Nat → Nat) (now win_start win_end : Nat) (allowed_days : List (List Char)) : Except SchedError Int :=
  next_start_search rnd now win_start win_end allowed_days (List.range 14)

/-- Observable side effects of one session-loop iteration: an F13
keep-alive sent at instant `t`, or a progress line rendered at instant
`t` with the values the source computes for it. -/
inductive Event
  | keepAlive (t : Nat)
  | progress (t remaining elapsed percent : Nat)
deriving DecidableEq

/-- The mutable state of the polling loop in `run_session`: the two
due instants plus the events emitted so far. -/
structure LoopState where
  next_send : Nat
  next_progress : Nat
  events : List Event
deriving DecidableEq

/-- How one `run_session` invocation ends: timeout (`Completed`), the
`E` key (`EndedEarly`), or the `Q` key (`Quit`, i.e. `sys.exit(0)`). -/
inductive Outcome
  | Completed
  | EndedEarly
  | Quit
deriving DecidableEq

/-- Result of one loop iteration: leave the loop with an outcome, or
continue with an updated state. -/
inductive StepResult
  | done (outcome : Outcome) (s : LoopState)
  | cont (s : LoopState)
deriving DecidableEq

/-- `remaining = int((end - now).total_seconds()); if remaining < 0:
remaining = 0` — truncated subtraction is exactly this clamp. -/
def progress_remaining (end_ now : Nat) : Nat := end_ - now

/-- `elapsed = total - remaining`, clamped into `[0, total]`; the lower
clamp is truncated subtraction, the upper clamp is kept verbatim. -/
def progress_elapsed (total remaining : Nat) : Nat :=
  let e := total - remaining
  if e > total then total else e

/-- `percent = int((elapsed * 100) / total) if total > 0 else 0`.
Python's float division followed by `int(...)` truncation equals floor
division at these magnitudes, where products are exactly representable. -/
def progress_percent (total elapsed : Nat) : Nat :=
  if total > 0 then elapsed * 100 / total else 0

/-- One iteration of the `while True` polling loop of `run_session`
(lines 293–327 of the source), given the instant `now` read at its top
and the key `read_key_nonblocking` yields in it: first the `now >= end`
exit check, then the `Q` and `E` key checks, then the keep-alive send
with `next_send = now + interval_seconds`, then the progress render with
`next_progress = now + progress_tick_seconds`. -/
def session_step (end_ interval tick total : Nat) (s : LoopState) (now : Nat) (key : Option Char) : StepResult :=
  if now ≥ end_ then .done .Completed s
  else if key = some 'Q' then .done .Quit s
  else if key = some 'E' then .done .EndedEarly s
  else
    let s1 : LoopState :=
      if now ≥ s.next_send then
        ⟨now + interval, s.next_progress, s.events ++ [.keepAlive now]⟩
      else s
    let s2 : LoopState :=
      if now ≥ s1.next_progress then
        let remaining := progress_remaining end_ now
        let elapsed := progress_elapsed total remaining
        ⟨s1.next_send, now + tick, s1.events ++ [.progress now remaining elapsed (progress_percent total elapsed)]⟩
      else s1
    .cont s2

/-- The polling loop of `run_session` as a fold of `session_step` over
the trace of per-iteration clock readings and keys; `none` when the
finite trace is exhausted before the loop exits. -/
def run_loop (end_ interval tick total : Nat) (s : LoopState) : List (Nat × Option Char) → Option (Outcome × LoopState)
  | [] => none
  | (now, key) :: rest =>
    match session_step end_ interval tick total s now key with
    | .done o s1 => some (o, s1)
    | .cont s1 => run_loop end_ interval tick total s1 rest

/-- `run_session` of the source: draw `duration = randint(min, max)`
minutes, set `end = start + duration` and `total = duration * 60`
seconds, and run the polling loop with both due instants initialised to
the session start (the source initialises them from `now()` read
immediately after `start`; at whole-second granularity this is the
session start, as §4.3 of the spec states). -/
def run_session (rint : Nat → Nat → Nat) (min_minutes max_minutes interval_seconds progress_tick_seconds start : Nat) (trace : List (Nat × Option Char)) : Option (Outcome × LoopState) :=
  let duration := rint min_minutes max_minutes
  let end_ := start + duration * 60
  let total := duration * 60
  run_loop end_ interval_seconds progress_tick_seconds total ⟨start, start, []⟩ trace

/-- The first decisive observation of a session trace: `Completed` at
the first reading past `end_`, else `Quit`/`EndedEarly` at the first
`Q`/`E` key seen before that.  The loop's outcome depends on the trace
only through this. -/
def loop_outcome (end_ : Nat) : List (Nat × Option Char) → Option Outcome
  | [] => none
  | (now, key) :: rest =>
    if now ≥ end_ then some .Completed
    else if key = some 'Q' then some .Quit
    else if key = some 'E' then some .EndedEarly
    else loop_outcome end_ rest

/-- Where control of `main` stands after a session ends. -/
inductive MainPhase
  | Scheduling
  | Terminated (exitCode : Nat) (inhibitionReleased : Bool)
deriving DecidableEq

/-- What `main` does with a session's outcome.  `Quit` is `sys.exit(0)`
raised inside `run_session`; the `atexit` handler registered at line 392
then terminates the `caffeinate` process, so the process exits with code
0 after releasing sleep inhibition.  `EndedEarly` and `Completed` simply
return from `run_session`, and `main`'s `while True` goes on scheduling
the next session. -/
def after_session : Outcome → MainPhase
  | .Quit => .Terminated 0 true
  | .EndedEarly => .Scheduling
  | .Completed => .Scheduling

/-- The validated configuration `main` runs with. -/
structure Config where
  win_start : Nat
  win_end : Nat
  allowed_days : List (List Char)
  min_duration_minutes : Int
  max_duration_minutes : Int
  interval_seconds : Int
  progress_tick_seconds : Int
deriving DecidableEq

/-- Result of `main`'s startup sequence: either an uncaught
configuration `ValueError` (Python exits with code 1) raised before
`start_caffeinate()` is ever called, or a running process that has
acquired the sleep-inhibition handle. -/
inductive StartupResult
  | configFailure (e : ConfigError) (exitCode : Nat) (caffeinateAcquired : Bool)
  | running (cfg : Config) (caffeinateAcquired : Bool)
deriving DecidableEq

/-- The validation prefix of `main` (lines 371–391 of the source), in
source order: same-day window check, `normalize_days`, duration bounds,
keep-alive interval, progress tick — all before `start_caffeinate()`.
`win_start`/`win_end` are the parsed times-of-day in seconds; the
numeric flags are `Int` as `argparse` delivers them. -/
def main_startup (win_start win_end : Nat) (days_csv : List Char) (min_duration max_duration interval tick : Int) : StartupResult :=
  if win_end < win_start then .configFailure .invalidWindow 1 false
  else
    match normalize_days days_csv with
    | .error e => .configFailure e 1 false
    | .ok allowed =>
      if min_duration ≤ 0 ∨ max_duration ≤ 0 then .configFailure .invalidDuration 1 false
      else if max_duration < min_duration then .configFailure .invalidDuration 1 false
      else if interval ≤ 0 then .configFailure .invalidInterval 1 false
      else if tick ≤ 0 then .configFailure .invalidTick 1 false
      else .running ⟨win_start, win_end, allowed, min_duration, max_duration, interval, tick⟩ true

/-- The instant an event carries. -/
def Event.time : Event → Nat
  | .keepAlive t => t
  | .progress t _ _ _ => t

/-- The rendered percentage of an event (0 for keep-alives). -/
def Event.percent : Event → Nat
  | .keepAlive _ => 0
  | .progress _ _ _ p => p

/-- Whether an event is an F13 keep-alive. -/
def Event.isKeepAlive : Event → Bool
  | .keepAlive _ => true
  | .progress _ _ _ _ => false

/-- Whether an event is a progress render. -/
def Event.isProgress : Event → Bool
  | .keepAlive _ => false
  | .progress _ _ _ _ => true

/-- The progress event `session_step` renders at instant `now` of a
session ending at `end_` with total length `total`. -/
def prog_event (end_ total now : Nat) : Event :=
  .progress now (progress_remaining end_ now)
    (progress_elapsed total (progress_remaining end_ now))
    (progress_percent total (progress_elapsed total (progress_remaining end_ now)))

/-- A progress event rendered at some instant of a running session
(instant before `end_`, at or after the start `end_ - total`), with
exactly the field values `session_step` computes there. -/
def ProgCanonical (end_ total : Nat) : Event → Prop
  | .keepAlive _ => True
  | .progress t r el p =>
    t < end_ ∧ end_ ≤ t + total ∧ Event.progress t r el p = prog_event end_ total t

/-- Closed form of `get_random_datetime_in_window`: the source's
`min_start` is `max earliest_allowed window_start`, the dead
`span_seconds < 0` branch never fires, and the result is the lower bound
plus the random offset. -/
theorem grdiw_eq (rnd : Nat → Nat) (ea ws we : Int) :
    get_random_datetime_in_window rnd ea ws we =
      if max ea ws ≤ we then some (max ea ws + (rnd (we - max ea ws).toNat : Int))
      else none := by
  unfold get_random_datetime_in_window
  have hM : (if ws > ea then ws else ea) = max ea ws := by split_ifs <;> omega
  simp only [hM]
  split_ifs with h1 h2 h3 <;> first | rfl | omega

/-- A comma-free Python string splits into the single field holding it. -/
theorem splitOnComma_no_comma (p : List Char) (h : ',' ∉ p) : splitOnComma p = [p] := by
  induction p with
  | nil => rfl
  | cons c rest ih =>
    simp only [splitOnComma]
    have hc : ¬ c = ',' := by
      intro hh
      exact h (hh ▸ List.mem_cons_self c rest)
    rw [if_neg hc, ih (fun hm => h (List.mem_cons_of_mem c hm))]
    rfl

/-- A session poll loop that observes no key can only exit by reaching
the session end. -/
theorem run_loop_keys_none (end_ interval tick total : Nat) :
    ∀ (trace : List (Nat × Option Char)) (st : LoopState) (o : Outcome) (s1 : LoopState),
      (∀ x ∈ trace, x.2 = none) →
      run_loop end_ interval tick total st trace = some (o, s1) → o = .Completed := by
  intro trace
  induction trace with
  | nil =>
    intro st o s1 _ h
    simp [run_loop] at h
  | cons x rest ih =>
    intro st o s1 hk h
    obtain ⟨now, key⟩ := x
    have hkey : key = none := hk (now, key) (List.mem_cons_self _ _)
    subst hkey
    by_cases h1 : now ≥ end_
    · rw [run_loop] at h
      simp only [session_step, if_pos h1] at h
      simp only [Option.some_inj, Prod.mk.injEq] at h
      exact h.1.symm
    · rw [run_loop] at h
      simp only [session_step, if_neg h1] at h
      simp only [reduceCtorEq, if_false] at h
      exact ih _ _ _ (fun y hy => hk y (List.mem_cons_of_mem _ hy)) h

/-- Whatever `loop_outcome` reads off a trace, the full loop realises
from any loop state. -/
theorem run_loop_of_outcome (end_ interval tick total : Nat) :
    ∀ (trace : List (Nat × Option Char)) (st : LoopState) (o : Outcome),
      loop_outcome end_ trace = some o →
      ∃ s1, run_loop end_ interval tick total st trace = some (o, s1) := by
  intro trace
  induction trace with
  | nil =>
    intro st o h
    simp [loop_outcome] at h
  | cons x rest ih =>
    intro st o h
    obtain ⟨now, key⟩ := x
    rw [loop_outcome] at h
    rw [run_loop]
    by_cases h1 : now ≥ end_
    · rw [if_pos h1] at h
      simp only [Option.some_inj] at h
      subst h
      exact ⟨st, by simp [session_step, if_pos h1]⟩
    · rw [if_neg h1] at h
      by_cases h2 : key = some 'Q'
      · rw [if_pos h2] at h
        simp only [Option.some_inj] at h
        subst h
        exact ⟨st, by simp [session_step, if_neg h1, h2]⟩
      · rw [if_neg h2] at h
        by_cases h3 : key = some 'E'
        · rw [if_pos h3] at h
          simp only [Option.some_inj] at h
          subst h
          exact ⟨st, by simp [session_step, if_neg h1, h2, h3]⟩
        · rw [if_neg h3] at h
          have hstep : ∃ s2, session_step end_ interval tick total st now key = .cont s2 := by
            simp only [session_step, if_neg h1, if_neg h2, if_neg h3]
            exact ⟨_, rfl⟩
          obtain ⟨s2, hs2⟩ := hstep
          rw [hs2]
          exact ih s2 o h

/-- Once the keep-alive due instant is at or past the session end, no
further keep-alive is sent: the loop completes with the keep-alive
events it already has. -/
theorem run_loop_no_more_sends (end_ interval tick total : Nat) :
    ∀ (trace : List (Nat × Option Char)) (st : LoopState),
      (∀ x ∈ trace, x.2 = none) →
      (∃ x ∈ trace, end_ ≤ x.1) →
      end_ ≤ st.next_send →
      ∃ s1, run_loop end_ interval tick total st trace = some (.Completed, s1) ∧
        s1.events.filter Event.isKeepAlive = st.events.filter Event.isKeepAlive := by
  intro trace
  induction trace with
  | nil =>
    intro st _ hex _
    simp at hex
  | cons x rest ih =>
    intro st hk hex hsend
    obtain ⟨now, key⟩ := x
    have hkey : key = none := hk (now, key) (List.mem_cons_self _ _)
    subst hkey
    rw [run_loop]
    by_cases h1 : now ≥ end_
    · simp only [session_step, if_pos h1]
      exact ⟨st, rfl, rfl⟩
    · simp only [session_step, if_neg h1]
      simp only [reduceCtorEq, if_false]
      have hns : ¬ now ≥ st.next_send := by omega
      rw [if_neg hns]
      have hrest : ∃ x ∈ rest, end_ ≤ x.1 := by
        obtain ⟨y, hy, hye⟩ := hex
        rcases List.mem_cons.mp hy with hh | hh
        · exfalso
          rw [hh] at hye
          omega
        · exact ⟨y, hh, hye⟩
      by_cases hp : now ≥ st.next_progress
      · rw [if_pos hp]
        obtain ⟨s1, hrun, hfilter⟩ :=
          ih ⟨st.next_send, now + tick,
            st.events ++ [Event.progress now (progress_remaining end_ now)
              (progress_elapsed total (progress_remaining end_ now))
              (progress_percent total (progress_elapsed total (progress_remaining end_ now)))]⟩
            (fun y hy => hk y (List.mem_cons_of_mem _ hy)) hrest hsend
        refine ⟨s1, hrun, ?_⟩
        rw [hfilter]
        simp [List.filter_append, Event.isKeepAlive]
      · rw [if_neg hp]
        exact ih st (fun y hy => hk y (List.mem_cons_of_mem _ hy)) hrest hsend

/-- One loop iteration either leaves the loop with the state untouched,
or continues past an instant still inside the session, appending only
the due keep-alive and then the due progress render. -/
theorem session_step_shape (end_ interval tick total : Nat) (s : LoopState) (now : Nat)
    (key : Option Char) :
    (∃ o, session_step end_ interval tick total s now key = .done o s) ∨
    (now < end_ ∧
      session_step end_ interval tick total s now key =
        .cont ⟨(if now ≥ s.next_send then now + interval else s.next_send),
               (if now ≥ s.next_progress then now + tick else s.next_progress),
               s.events ++
                 ((if now ≥ s.next_send then [Event.keepAlive now] else []) ++
                  (if now ≥ s.next_progress then [prog_event end_ total now] else []))⟩) := by
  by_cases h1 : now ≥ end_
  · exact .inl ⟨.Completed, by simp [session_step, h1]⟩
  · by_cases h2 : key = some 'Q'
    · exact .inl ⟨.Quit, by simp [session_step, h1, h2]⟩
    · by_cases h3 : key = some 'E'
      · exact .inl ⟨.EndedEarly, by simp [session_step, h1, h2, h3]⟩
      · refine .inr ⟨by omega, ?_⟩
        simp only [session_step, if_neg h1, if_neg h2, if_neg h3]
        by_cases hs : now ≥ s.next_send <;> by_cases hp : now ≥ s.next_progress <;>
          simp [hs, hp, prog_event, List.append_assoc]

/-- Loop invariant behind C4: under a monotone clock staying at or after
the session start, every progress event the loop accumulates is
canonical and the events stay sorted by instant. -/
theorem run_loop_c4_inv (end_ interval tick total : Nat) :
    ∀ (trace : List (Nat × Option Char)) (st : LoopState) (o : Outcome) (s1 : LoopState),
      List.Pairwise (fun x y => x.1 ≤ y.1) trace →
      (∀ x ∈ trace, end_ ≤ x.1 + total) →
      (∀ ev ∈ st.events, ∀ x ∈ trace, Event.time ev ≤ x.1) →
      (∀ ev ∈ st.events, ProgCanonical end_ total ev) →
      List.Pairwise (fun a b => Event.time a ≤ Event.time b) st.events →
      run_loop end_ interval tick total st trace = some (o, s1) →
      (∀ ev ∈ s1.events, ProgCanonical end_ total ev) ∧
      List.Pairwise (fun a b => Event.time a ≤ Event.time b) s1.events := by
  intro trace
  induction trace with
  | nil =>
    intro st o s1 _ _ _ _ _ h
    simp [run_loop] at h
  | cons x rest ih =>
    intro st o s1 hpw htot hlink hcan hsorted h
    obtain ⟨now, key⟩ := x
    rw [run_loop] at h
    rcases session_step_shape end_ interval tick total st now key with ⟨o2, hdone⟩ | ⟨hlt, hcont⟩
    · rw [hdone] at h
      simp only [Option.some_inj, Prod.mk.injEq] at h
      rw [← h.2]
      exact ⟨hcan, hsorted⟩
    · rw [hcont] at h
      simp only at h
      set tail := (if now ≥ st.next_send then [Event.keepAlive now] else []) ++
        (if now ≥ st.next_progress then [prog_event end_ total now] else []) with htail
      have htail_mem : ∀ ev ∈ tail, ev = Event.keepAlive now ∨ ev = prog_event end_ total now := by
        intro ev hev
        rw [htail] at hev
        rcases List.mem_append.mp hev with hh | hh
        · left
          by_cases hs : now ≥ st.next_send
          · rw [if_pos hs] at hh
            simpa using hh
          · rw [if_neg hs] at hh
            simp at hh
        · right
          by_cases hp : now ≥ st.next_progress
          · rw [if_pos hp] at hh
            simpa using hh
          · rw [if_neg hp] at hh
            simp at hh
      have htail_time : ∀ ev ∈ tail, Event.time ev = now := by
        intro ev hev
        rcases htail_mem ev hev with rfl | rfl
        · rfl
        · rfl
      have hnowtot : end_ ≤ now + total := htot (now, key) (List.mem_cons_self _ _)
      refine ih _ o s1 (List.Pairwise.sublist (List.sublist_cons_self _ _) hpw)
        (fun y hy => htot y (List.mem_cons_of_mem _ hy)) ?_ ?_ ?_ h
      · intro ev hev y hy
        rcases List.mem_append.mp hev with hh | hh
        · exact le_trans (hlink ev hh (now, key) (List.mem_cons_self _ _))
            (List.rel_of_pairwise_cons hpw hy)
        · rw [htail_time ev hh]
          exact List.rel_of_pairwise_cons hpw hy
      · intro ev hev
        rcases List.mem_append.mp hev with hh | hh
        · exact hcan ev hh
        · rcases htail_mem ev hh with rfl | rfl
          · trivial
          · exact ⟨hlt, hnowtot, rfl⟩
      · rw [List.pairwise_append]
        refine ⟨hsorted, ?_, ?_⟩
        · refine List.pairwise_of_forall_mem_list ?_
          intro a ha b hb
          rw [htail_time a ha, htail_time b hb]
        · intro a ha b hb
          rw [htail_time b hb]
          exact hlink a ha (now, key) (List.mem_cons_self _ _)

/-- The rendered percentage is non-decreasing in the render instant. -/
theorem prog_percent_mono (end_ total t1 t2 : Nat) (hle : t1 ≤ t2) :
    Event.percent (prog_event end_ total t1) ≤ Event.percent (prog_event end_ total t2) := by
  simp only [prog_event, Event.percent, progress_remaining, progress_elapsed, progress_percent]
  split_ifs <;> try omega
  exact Nat.div_le_div_right (by omega)

/-- Within 13 days after any day there is a day of every weekday. -/
theorem weekday_hit :
    ∀ a ∈ List.range 7, ∀ k ∈ List.range 7,
      ∃ i ∈ List.range 14, 1 ≤ i ∧ (a + i) % 7 = k := by decide

/-- Soundness of the lookahead: any instant it returns is at or after
`now`, on a day whose weekday is allowed, with its time-of-day inside
the window. -/
theorem next_start_search_sound (rnd : Nat → Nat) (hrnd : ∀ n, rnd n ≤ n)
    (now win_start win_end : Nat) (hwe : win_end < 86400)
    (allowed_days : List (List Char)) :
    ∀ (l : List Nat) (r : Int),
      next_start_search rnd now win_start win_end allowed_days l = .ok r →
      ∃ rn : Nat, r = (rn : Int) ∧
        now ≤ rn ∧
        day_abbrev (rn / 86400) ∈ allowed_days ∧
        win_start ≤ rn % 86400 ∧ rn % 86400 ≤ win_end := by
  intro l
  induction l with
  | nil =>
    intro r h
    simp [next_start_search] at h
  | cons i rest ih =>
    intro r h
    rw [next_start_search] at h
    by_cases hmem : day_abbrev (now / 86400 + i) ∈ allowed_days
    · rw [if_pos hmem] at h
      by_cases hwin : (((now / 86400 + i) * 86400 + win_end : Nat) : Int) <
          (((now / 86400 + i) * 86400 + win_start : Nat) : Int)
      · rw [if_pos hwin] at h
        exact absurd h (by simp)
      · rw [if_neg hwin] at h
        simp only [grdiw_eq] at h
        by_cases hc : max (if i = 0 then (now : Int) else (((now / 86400 + i) * 86400 : Nat) : Int))
            (((now / 86400 + i) * 86400 + win_start : Nat) : Int) ≤
            (((now / 86400 + i) * 86400 + win_end : Nat) : Int)
        · rw [if_pos hc] at h
          simp only [Except.ok.injEq] at h
          have hrb := hrnd ((((now / 86400 + i) * 86400 + win_end : Nat) : Int) -
            max (if i = 0 then (now : Int) else (((now / 86400 + i) * 86400 : Nat) : Int))
              (((now / 86400 + i) * 86400 + win_start : Nat) : Int)).toNat
          by_cases hi : i = 0
          · subst hi
            simp only [reduceIte] at h hc hrb
            refine ⟨r.toNat, by omega, by omega, ?_, by omega, by omega⟩
            have hdd : r.toNat / 86400 = now / 86400 + 0 := by omega
            rw [hdd]
            exact hmem
          · rw [if_neg hi] at h hc hrb
            refine ⟨r.toNat, by omega, by omega, ?_, by omega, by omega⟩
            have hdd : r.toNat / 86400 = now / 86400 + i := by omega
            rw [hdd]
            exact hmem
        · rw [if_neg hc] at h
          exact ih r h
    · rw [if_neg hmem] at h
      exact ih r h

/-- Completeness of the lookahead: as long as some strictly future day
offset in the list lands on an allowed weekday, the search succeeds
(days after today always admit a window instant). -/
theorem next_start_search_ok (rnd : Nat → Nat)
    (now win_start win_end : Nat) (hw : win_start ≤ win_end)
    (allowed_days : List (List Char)) :
    ∀ (l : List Nat),
      (∃ i ∈ l, 1 ≤ i ∧ day_abbrev (now / 86400 + i) ∈ allowed_days) →
      ∃ r, next_start_search rnd now win_start win_end allowed_days l = .ok r := by
  intro l
  induction l with
  | nil =>
    intro hex
    simp at hex
  | cons j rest ih =>
    intro hex
    obtain ⟨i, hi, h1i, hmem⟩ := hex
    rw [next_start_search]
    by_cases hj : day_abbrev (now / 86400 + j) ∈ allowed_days
    · rw [if_pos hj]
      have hwin : ¬ ((((now / 86400 + j) * 86400 + win_end : Nat) : Int) <
          (((now / 86400 + j) * 86400 + win_start : Nat) : Int)) := by omega
      rw [if_neg hwin]
      simp only [grdiw_eq]
      by_cases hc : max (if j = 0 then (now : Int) else (((now / 86400 + j) * 86400 : Nat) : Int))
          (((now / 86400 + j) * 86400 + win_start : Nat) : Int) ≤
          (((now / 86400 + j) * 86400 + win_end : Nat) : Int)
      · rw [if_pos hc]
        exact ⟨_, rfl⟩
      · rw [if_neg hc]
        have hj0 : j = 0 := by
          by_contra hne
          apply hc
          rw [if_neg hne]
          omega
        apply ih
        refine ⟨i, ?_, h1i, hmem⟩
        rcases List.mem_cons.mp hi with hh | hh
        · omega
        · exact hh
    · rw [if_neg hj]
      apply ih
      refine ⟨i, ?_, h1i, hmem⟩
      rcases List.mem_cons.mp hi with hh | hh
      · exact absurd (hh ▸ hmem) hj
      · exact hh

/-- C1: for every non-empty allowed-weekday set and every valid daily
window (`win_start ≤ win_end`, both times-of-day), `get_next_session_start`
never raises: it returns an instant at or after `now`, whose calendar
day's weekday is allowed, and whose time-of-day lies inside the window —
always found within the 14-day lookahead. -/
theorem c1_next_session_start_valid (rnd : Nat → Nat) (hrnd : ∀ n, rnd n ≤ n)
    (now win_start win_end : Nat) (hw : win_start ≤ win_end) (hwe : win_end < 86400)
    (allowed_days : List (List Char))
    (hne : ∃ k, k < 7 ∧ DOW_ABBREV.getD k [] ∈ allowed_days) :
    ∃ rn : Nat,
      get_next_session_start rnd now win_start win_end allowed_days = .ok ((rn : Nat) : Int) ∧
      now ≤ rn ∧
      day_abbrev (rn / 86400) ∈ allowed_days ∧
      win_start ≤ rn % 86400 ∧ rn % 86400 ≤ win_end := by
  obtain ⟨k, hk7, hkmem⟩ := hne
  obtain ⟨i, hi14, h1i, himod⟩ :=
    weekday_hit ((now / 86400) % 7) (List.mem_range.mpr (by omega)) k (List.mem_range.mpr hk7)
  have hmem : day_abbrev (now / 86400 + i) ∈ allowed_days := by
    unfold day_abbrev
    have hmod : (now / 86400 + i) % 7 = k := by omega
    rw [hmod]
    exact hkmem
  obtain ⟨r, hr⟩ := next_start_search_ok rnd now win_start win_end hw allowed_days
    (List.range 14) ⟨i, hi14, h1i, hmem⟩
  obtain ⟨rn, hrn, hprops⟩ :=
    next_start_search_sound rnd hrnd now win_start win_end hwe allowed_days (List.range 14) r hr
  refine ⟨rn, ?_, hprops⟩
  rw [get_next_session_start, hr, hrn]

/-- Witness for C1 at a concrete input (Monday midnight, zero-width
window at midnight, Mondays allowed). -/
theorem c1_witness :
    ∃ rn : Nat,
      get_next_session_start (fun n => n) 0 0 0 ["Mon".data] = .ok ((rn : Nat) : Int) ∧
      0 ≤ rn ∧ day_abbrev (rn / 86400) ∈ ["Mon".data] ∧
      0 ≤ rn % 86400 ∧ rn % 86400 ≤ 0 :=
  c1_next_session_start_valid (fun n => n) (fun n => Nat.le_refl n) 0 0 0 (by decide)
    (by decide) ["Mon".data] ⟨0, by decide, by decide⟩

/-- C2: for every `earliest_allowed`, `window_start` and `window_end`,
`get_random_datetime_in_window` returns a value in the inclusive
interval `[max earliest_allowed window_start, window_end]`, returns
`none` iff that lower bound exceeds `window_end`, and both interval ends
are attainable (by the extreme draws of `random.randint`). -/
theorem c2_random_window_bounds (rnd : Nat → Nat) (hrnd : ∀ n, rnd n ≤ n)
    (ea ws we : Int) :
    (get_random_datetime_in_window rnd ea ws we = none ↔ we < max ea ws) ∧
    (∀ x, get_random_datetime_in_window rnd ea ws we = some x →
      max ea ws ≤ x ∧ x ≤ we) ∧
    (max ea ws ≤ we →
      get_random_datetime_in_window (fun _ => 0) ea ws we = some (max ea ws) ∧
      get_random_datetime_in_window (fun n => n) ea ws we = some we) := by
  refine ⟨?_, ?_, ?_⟩
  · rw [grdiw_eq]
    split_ifs with h
    · simp
      omega
    · simp
      omega
  · intro x hx
    rw [grdiw_eq] at hx
    split_ifs at hx with h
    have h2 := hrnd (we - max ea ws).toNat
    have h3 : ((we - max ea ws).toNat : Int) = we - max ea ws := by omega
    simp only [Option.some_inj] at hx
    omega
  · intro h
    rw [grdiw_eq, grdiw_eq]
    rw [if_pos h, if_pos h]
    constructor
    · simp
    · have h3 : ((we - max ea ws).toNat : Int) = we - max ea ws := by omega
      rw [h3]
      congr 1
      omega

/-- Witness for C2 at a concrete input: both ends of `[max 0 0, 5]`
are attained. -/
theorem c2_witness :
    get_random_datetime_in_window (fun _ => 0) 0 0 5 = some (max 0 0) ∧
    get_random_datetime_in_window (fun n => n) 0 0 5 = some 5 :=
  (c2_random_window_bounds (fun _ => 0) (fun n => Nat.zero_le n) 0 0 5).2.2 (by decide)

/-- C3 (counterexample): with the keep-alive due at 60, interval 60 and
the poll landing at 100, the step emits one keep-alive but sets the next
due instant to 100 + 60 = 160, not to the previous due plus the interval
(60 + 60 = 120) — refuting `nextKeepAliveDue += keepAliveInterval`. -/
theorem c3_counterexample :
    session_step 1000 60 500 1000 ⟨60, 400, []⟩ 100 none =
      .cont ⟨160, 400, [Event.keepAlive 100]⟩ ∧ 160 ≠ 60 + 60 := by
  constructor
  · decide
  · decide

/-- C3 (amended): whenever a poll iteration inside the session (no
`Q`/`E` key) finds `now` at or past the keep-alive due instant, exactly
one keep-alive is emitted and the due instant is set to
`now + interval` — the current poll instant plus the interval, which
equals the previous due plus the interval only when the poll lands
exactly on the due instant. -/
theorem c3_keepalive_step (end_ interval tick total : Nat) (s : LoopState) (now : Nat)
    (key : Option Char) (hend : now < end_) (hq : key ≠ some 'Q') (he : key ≠ some 'E')
    (hdue : s.next_send ≤ now) :
    ∃ s2, session_step end_ interval tick total s now key = .cont s2 ∧
      s2.next_send = now + interval ∧
      s2.events.filter Event.isKeepAlive =
        s.events.filter Event.isKeepAlive ++ [Event.keepAlive now] := by
  simp only [session_step, if_neg (by omega : ¬ now ≥ end_), if_neg hq, if_neg he]
  rw [if_pos (by omega : now ≥ s.next_send)]
  dsimp only
  by_cases hp : now ≥ s.next_progress
  · rw [if_pos hp]
    refine ⟨_, rfl, rfl, ?_⟩
    simp [List.filter_append, Event.isKeepAlive]
  · rw [if_neg hp]
    refine ⟨_, rfl, rfl, ?_⟩
    simp [List.filter_append, Event.isKeepAlive]

/-- Witness for C3's amended theorem at a concrete input. -/
theorem c3_witness :
    session_step 10 3 100 10 ⟨0, 50, []⟩ 0 none = .cont ⟨3, 50, [Event.keepAlive 0]⟩ ∧
    (3 : Nat) = 0 + 3 := by
  obtain ⟨s2, hstep, hns, hflt⟩ :=
    c3_keepalive_step 10 3 100 10 ⟨0, 50, []⟩ 0 none (by decide) (by decide) (by decide)
      (by decide)
  have hconc : session_step 10 3 100 10 ⟨0, 50, []⟩ 0 none =
      .cont ⟨3, 50, [Event.keepAlive 0]⟩ := by decide
  rw [hstep] at hconc
  cases hconc
  exact ⟨hstep, hns⟩

/-- C4: the drawn session duration is a whole number of minutes in
`[min_minutes, max_minutes]`; at every progress tick of the run,
`remaining + elapsed` equals the total duration in seconds and the
percentage is at most 100 (it is a `Nat`, hence at least 0); and the
percentage is non-decreasing across successive ticks, assuming the wall
clock is monotone and never reads before the session start. -/
theorem c4_session_invariants (rint : Nat → Nat → Nat)
    (hr : ∀ a b, a ≤ b → a ≤ rint a b ∧ rint a b ≤ b)
    (min_minutes max_minutes interval tick start : Nat) (hmm : min_minutes ≤ max_minutes)
    (trace : List (Nat × Option Char))
    (hmono : List.Pairwise (fun x y => x.1 ≤ y.1) trace)
    (hstart : ∀ x ∈ trace, start ≤ x.1)
    (o : Outcome) (s1 : LoopState)
    (h : run_session rint min_minutes max_minutes interval tick start trace = some (o, s1)) :
    (min_minutes ≤ rint min_minutes max_minutes ∧ rint min_minutes max_minutes ≤ max_minutes) ∧
    (∀ ev ∈ s1.events, ∀ t r el p, ev = .progress t r el p →
      r + el = rint min_minutes max_minutes * 60 ∧ p ≤ 100) ∧
    List.Chain' (fun a b => Event.percent a ≤ Event.percent b)
      (s1.events.filter Event.isProgress) := by
  have hdur := hr min_minutes max_minutes hmm
  unfold run_session at h
  obtain ⟨hcanon, hsort⟩ := run_loop_c4_inv (start + rint min_minutes max_minutes * 60)
    interval tick (rint min_minutes max_minutes * 60) trace
    ⟨start, start, []⟩ o s1 hmono
    (fun x hx => by have := hstart x hx; omega)
    (by intro ev hev; simp at hev)
    (by intro ev hev; simp at hev)
    (by simp)
    h
  refine ⟨hdur, ?_, ?_⟩
  · intro ev hev t r el p heq
    have hc := hcanon ev hev
    rw [heq] at hc
    simp only [ProgCanonical] at hc
    obtain ⟨h1, h2, h3⟩ := hc
    simp only [prog_event, Event.progress.injEq] at h3
    obtain ⟨-, hrr, hel, hpp⟩ := h3
    subst hrr hel hpp
    constructor
    · simp only [progress_remaining, progress_elapsed]
      split_ifs with hif
      · omega
      · omega
    · simp only [progress_percent, progress_elapsed, progress_remaining]
      split_ifs with hif1 hif2 <;> try omega
      exact Nat.div_le_of_le_mul (by omega)
  · have hfil : List.Pairwise (fun a b => Event.time a ≤ Event.time b)
        (s1.events.filter Event.isProgress) := hsort.filter _
    refine List.Pairwise.chain' (List.Pairwise.imp_of_mem ?_ hfil)
    intro a b ha hb hab
    have hpa := hcanon a (List.mem_of_mem_filter ha)
    have hpb := hcanon b (List.mem_of_mem_filter hb)
    have hia : a.isProgress = true := List.of_mem_filter ha
    have hib : b.isProgress = true := List.of_mem_filter hb
    cases a with
    | keepAlive t => simp [Event.isProgress] at hia
    | progress ta ra ela pa =>
      cases b with
      | keepAlive t => simp [Event.isProgress] at hib
      | progress tb rb elb pb =>
        simp only [ProgCanonical] at hpa hpb
        simp only [Event.time] at hab
        rw [hpa.2.2, hpb.2.2]
        exact prog_percent_mono _ _ ta tb hab

/-- Witness for C4: a concrete one-minute session whose progress tick at
instant 45 satisfies the invariant. -/
theorem c4_witness :
    (0 : Nat) ≤ 0 ∧ 15 + 45 = 60 ∧ 75 ≤ 100 := by
  have h := c4_session_invariants (fun a _ => a) (fun a b hb => ⟨Nat.le_refl a, hb⟩)
    1 1 60 30 0 (by decide) [(0, none), (45, none), (60, none)] (by decide) (by decide)
    .Completed
    ⟨60, 75, [Event.keepAlive 0, Event.progress 0 60 0 0, Event.progress 45 15 45 75]⟩
    (by decide)
  exact ⟨Nat.le_refl 0,
    h.2.1 (Event.progress 45 15 45 75) (by decide) 45 15 45 75 rfl⟩

/-- C5: during a running session, an observed `E` key ends only that
session — the loop returns `EndedEarly` and `main` goes on scheduling
without terminating the process — while an observed `Q` key terminates
the whole process with exit code 0 after the `atexit` handler releases
the sleep-inhibition (`caffeinate`) handle. -/
theorem c5_end_early_vs_quit (end_ interval tick total : Nat) (st : LoopState)
    (trace : List (Nat × Option Char)) :
    (loop_outcome end_ trace = some .EndedEarly →
      ∃ s1, run_loop end_ interval tick total st trace = some (.EndedEarly, s1) ∧
        after_session .EndedEarly = .Scheduling) ∧
    (loop_outcome end_ trace = some .Quit →
      ∃ s1, run_loop end_ interval tick total st trace = some (.Quit, s1) ∧
        after_session .Quit = .Terminated 0 true) := by
  constructor
  · intro h
    obtain ⟨s1, hs1⟩ := run_loop_of_outcome end_ interval tick total trace st _ h
    exact ⟨s1, hs1, rfl⟩
  · intro h
    obtain ⟨s1, hs1⟩ := run_loop_of_outcome end_ interval tick total trace st _ h
    exact ⟨s1, hs1, rfl⟩

/-- Witness for C5 at concrete traces: an `E` at instant 0 and a `Q` at
instant 0, each inside a 100-second session. -/
theorem c5_witness :
    run_loop 100 60 1 100 ⟨0, 0, []⟩ [(0, some 'E')] = some (.EndedEarly, ⟨0, 0, []⟩) ∧
    after_session .EndedEarly = .Scheduling ∧
    run_loop 100 60 1 100 ⟨0, 0, []⟩ [(0, some 'Q')] = some (.Quit, ⟨0, 0, []⟩) ∧
    after_session .Quit = .Terminated 0 true := by
  obtain ⟨s1, hrun1, haft1⟩ :=
    (c5_end_early_vs_quit 100 60 1 100 ⟨0, 0, []⟩ [(0, some 'E')]).1 (by decide)
  obtain ⟨s2, hrun2, haft2⟩ :=
    (c5_end_early_vs_quit 100 60 1 100 ⟨0, 0, []⟩ [(0, some 'Q')]).2 (by decide)
  exact ⟨by decide, haft1, by decide, haft2⟩

/-- C6: within one poll iteration of a running session the input check
precedes the keep-alive check, which precedes the progress check: a `Q`
(or `E`) key leaves the loop with the state untouched, suppressing any
keep-alive or progress action due in that same iteration, and when the
iteration continues, the due keep-alive event is appended before the due
progress event. -/
theorem c6_poll_ordering (end_ interval tick total : Nat) (s : LoopState) (now : Nat)
    (key : Option Char) (h : now < end_) :
    (key = some 'Q' → session_step end_ interval tick total s now key = .done .Quit s) ∧
    (key = some 'E' → session_step end_ interval tick total s now key = .done .EndedEarly s) ∧
    (key ≠ some 'Q' → key ≠ some 'E' →
      ∃ s2, session_step end_ interval tick total s now key = .cont s2 ∧
        s2.events = s.events ++
          (if s.next_send ≤ now then [Event.keepAlive now] else []) ++
          (if s.next_progress ≤ now then
            [Event.progress now (progress_remaining end_ now)
              (progress_elapsed total (progress_remaining end_ now))
              (progress_percent total (progress_elapsed total (progress_remaining end_ now)))]
          else [])) := by
  refine ⟨?_, ?_, ?_⟩
  · intro hk
    simp [session_step, if_neg (by omega : ¬ now ≥ end_), hk]
  · intro hk
    subst hk
    simp [session_step, if_neg (by omega : ¬ now ≥ end_)]
  · intro hq he
    simp only [session_step, if_neg (by omega : ¬ now ≥ end_), if_neg hq, if_neg he]
    by_cases hs : now ≥ s.next_send <;> by_cases hp : now ≥ s.next_progress
    · rw [if_pos hs]
      refine ⟨_, rfl, ?_⟩
      simp only [if_pos hp, if_pos (by omega : s.next_send ≤ now),
        if_pos (by omega : s.next_progress ≤ now)]
    · rw [if_pos hs]
      refine ⟨_, rfl, ?_⟩
      simp only [if_neg hp, if_pos (by omega : s.next_send ≤ now),
        if_neg (by omega : ¬ s.next_progress ≤ now)]
      simp
    · rw [if_neg hs]
      refine ⟨_, rfl, ?_⟩
      simp only [if_pos hp, if_neg (by omega : ¬ s.next_send ≤ now),
        if_pos (by omega : s.next_progress ≤ now)]
      simp
    · rw [if_neg hs]
      refine ⟨_, rfl, ?_⟩
      simp only [if_neg hp, if_neg (by omega : ¬ s.next_send ≤ now),
        if_neg (by omega : ¬ s.next_progress ≤ now)]
      simp

/-- Witness for C6: a `Q` with both actions due leaves the state
untouched; with no key, keep-alive is appended before progress. -/
theorem c6_witness :
    session_step 10 2 5 10 ⟨0, 0, []⟩ 0 (some 'Q') = .done .Quit ⟨0, 0, []⟩ ∧
    session_step 10 2 5 10 ⟨0, 0, []⟩ 0 none =
      .cont ⟨2, 5, [Event.keepAlive 0, Event.progress 0 10 0 0]⟩ :=
  ⟨(c6_poll_ordering 10 2 5 10 ⟨0, 0, []⟩ 0 (some 'Q') (by decide)).1 rfl, by decide⟩

/-- C7: with `min = max = 1` minute and a 60-second keep-alive interval,
a session with no input lasts exactly 60 seconds (ends `Completed` at
the reading `start + 60`) and emits exactly one keep-alive, at t = 0
relative to the session start; none is emitted at t = 60 because the
loop exits on `now >= end` before the key and send checks. -/
theorem c7_one_minute_session (rint : Nat → Nat → Nat) (hr : rint 1 1 = 1)
    (tick start : Nat) :
    ∃ s1, run_session rint 1 1 60 tick start
        ((List.range 61).map (fun t => (start + t, none))) = some (.Completed, s1) ∧
      s1.events.filter Event.isKeepAlive = [Event.keepAlive start] ∧
      rint 1 1 * 60 = 60 := by
  unfold run_session
  rw [hr]
  have hrange : List.range 61 = 0 :: (List.range 60).map Nat.succ :=
    List.range_succ_eq_map 60
  rw [hrange]
  simp only [List.map_cons, List.map_map]
  rw [run_loop]
  have h1 : ¬ (start + 0 ≥ start + 1 * 60) := by omega
  simp only [session_step, if_neg h1]
  simp only [reduceCtorEq, if_false]
  have hs : start + 0 ≥ (LoopState.mk start start []).next_send := by simp
  rw [if_pos hs]
  have hp : start + 0 ≥ (LoopState.mk start start ([] : List Event)).next_progress := by simp
  rw [if_pos hp]
  obtain ⟨s1, hrun, hfilter⟩ := run_loop_no_more_sends (start + 1 * 60) 60 tick (1 * 60)
      ((List.range 60).map (fun x => (start + Nat.succ x, (none : Option Char))))
      ⟨start + 0 + 60, start + 0 + tick,
        [] ++ [Event.keepAlive (start + 0)] ++ [Event.progress (start + 0)
          (progress_remaining (start + 1 * 60) (start + 0))
          (progress_elapsed (1 * 60) (progress_remaining (start + 1 * 60) (start + 0)))
          (progress_percent (1 * 60)
            (progress_elapsed (1 * 60) (progress_remaining (start + 1 * 60) (start + 0))))]⟩
      (by
        intro y hy
        obtain ⟨x, _, rfl⟩ := List.mem_map.mp hy
        rfl)
      (by
        refine ⟨(start + Nat.succ 59, none), List.mem_map.mpr ⟨59, ?_, rfl⟩, ?_⟩
        · exact List.mem_range.mpr (by omega)
        · omega)
      (by simp)
  refine ⟨s1, hrun, ?_, ?_⟩
  · rw [hfilter]
    simp [Event.isKeepAlive]
  · simp [hr]

/-- Witness for C7 at `tick = 30`, `start = 0`, with the one-minute draw. -/
theorem c7_witness :
    ∃ s1, run_session (fun a _ => a) 1 1 60 30 0
        ((List.range 61).map (fun t => (0 + t, none))) = some (.Completed, s1) ∧
      s1.events.filter Event.isKeepAlive = [Event.keepAlive 0] ∧
      (fun (a : Nat) (_ : Nat) => a) 1 1 * 60 = 60 :=
  c7_one_minute_session (fun a _ => a) rfl 30 0

/-- C8 (counterexample): the CSV `"Mon,Funday"` contains the
unrecognised token `"Funday"`, yet `normalize_days` succeeds with
`["Mon"]` instead of raising a configuration error — refuting "every
unrecognized weekday token is a configuration error". -/
theorem c8_counterexample :
    normalize_days ("Mon,Funday".data) = .ok ["Mon".data] ∧
    dayKeyLookup ("Funday".data) = none := by
  constructor
  · decide
  · decide

/-- C8 (amended): unrecognised weekday tokens are silently dropped; the
days-of-week configuration error is raised iff no token of the value is
recognised, and in that case it is raised eagerly — the process exits
with code 1 before the sleep-inhibition handle is ever acquired. -/
theorem c8_unrecognized_tokens (win_start win_end : Nat) (hw : ¬ win_end < win_start)
    (days_csv : List Char) (min_d max_d interval tick : Int) :
    main_startup win_start win_end days_csv min_d max_d interval tick =
        .configFailure .invalidDays 1 false
      ↔ ∀ p ∈ splitParts days_csv, dayKeyLookup p = none := by
  unfold main_startup normalize_days
  rw [if_neg hw]
  rcases hfm : (splitParts days_csv).filterMap dayKeyLookup with _ | ⟨a, l⟩
  · simp only [if_pos rfl]
    constructor
    · intro _
      exact List.filterMap_eq_nil_iff.mp hfm
    · intro _
      rfl
  · rw [if_neg (by simp)]
    constructor
    · intro hcontra
      split_ifs at hcontra <;> simp_all
    · intro hall
      exfalso
      have hnil : (splitParts days_csv).filterMap dayKeyLookup = [] :=
        List.filterMap_eq_nil_iff.mpr hall
      rw [hnil] at hfm
      exact List.noConfusion hfm

/-- Witness for C8's amended theorem: a value with only unrecognised
tokens fails eagerly with exit code 1 and no acquisition. -/
theorem c8_witness :
    main_startup 0 100 ("Funday".data) 1 2 60 1 = .configFailure .invalidDays 1 false :=
  (c8_unrecognized_tokens 0 100 (by decide) ("Funday".data) 1 2 60 1).mpr (by decide)

/-- C9: when standard input is not a tty, `read_key_nonblocking` always
returns `none`; consequently a session whose poll loop reads its keys
from non-tty stdin states can only end by reaching its scheduled end
(`Completed`), never `Quit` or `EndedEarly`. -/
theorem c9_non_tty_no_keys :
    (∀ s : StdinState, s.isatty = false → read_key_nonblocking s = none) ∧
    (∀ (end_ interval tick total : Nat) (st : LoopState) (clock : List Nat)
        (stdins : List StdinState),
      (∀ s ∈ stdins, s.isatty = false) →
      ∀ o s1,
        run_loop end_ interval tick total st
            (clock.zip (stdins.map read_key_nonblocking)) = some (o, s1) →
        o = .Completed) := by
  constructor
  · intro s hs
    simp [read_key_nonblocking, hs]
  · intro end_ interval tick total st clock stdins hnt o s1 h
    refine run_loop_keys_none end_ interval tick total _ st o s1 ?_ h
    intro x hx
    have hx2 := (List.of_mem_zip hx).2
    obtain ⟨s, hs, heq⟩ := List.mem_map.mp hx2
    rw [← heq]
    simp [read_key_nonblocking, hnt s hs]

/-- Witness for C9: a non-tty stdin with a pending `Q` byte still yields
no key, and the session completes. -/
theorem c9_witness :
    Outcome.Completed = Outcome.Completed ∧
    read_key_nonblocking ⟨false, true, some 'Q'⟩ = none :=
  ⟨c9_non_tty_no_keys.2 100 1 1 0 ⟨0, 0, []⟩ [100] [⟨false, true, some 'Q'⟩] (by decide)
      .Completed ⟨0, 0, []⟩ (by decide),
    c9_non_tty_no_keys.1 ⟨false, true, some 'Q'⟩ rfl⟩

/-- C10: a weekday token is matched case-insensitively on its first
three characters only: any comma-free token whose stripped, lowercased
3-character head is a `DAY_MAP` key is accepted and normalised to that
weekday's canonical abbreviation, even when the token is not itself a
3-letter abbreviation. -/
theorem c10_prefix_case_insensitive (p d : List Char) (hc : ',' ∉ p)
    (h : DAY_MAP.lookup ((pyLower (pyStrip p)).take 3) = some d) :
    normalize_days p = .ok [d] := by
  have hne : pyStrip p ≠ [] := by
    intro he
    rw [he] at h
    simp [pyLower, DAY_MAP, List.lookup] at h
  unfold normalize_days splitParts
  rw [splitOnComma_no_comma p hc]
  simp only [List.map_cons, List.map_nil]
  rw [List.filter_cons_of_pos (by simpa using hne)]
  simp only [List.filter_nil, List.filterMap]
  unfold dayKeyLookup
  rw [h]
  rfl

/-- Witness for C10: `"Monday"` and `" SATURDAY "` are accepted and
normalised to `"Mon"` and `"Sat"`. -/
theorem c10_witness :
    normalize_days ("Monday".data) = .ok ["Mon".data] ∧
    normalize_days (" SATURDAY ".data) = .ok ["Sat".data] :=
  ⟨c10_prefix_case_insensitive "Monday".data "Mon".data (by decide) (by decide),
   c10_prefix_case_insensitive " SATURDAY ".data "Sat".data (by decide) (by decide)⟩

end Morrcaffeine
